import Mathlib

/-!
Verification of the taskpaper library (alexwlchan/python-taskpaper) against
its natural-language specification.  Each Python source file is embedded as
a Lean namespace:

* `Tags`    — `taskpaper/_tags.py` (the `TagCollection` with the `done` rule)
* `Outline` — `taskpaper/item.py` (parent/child relation with cycle check)
* `Items`   — `taskpaper/items.py` (tag regex scan, item parse/serialize,
              `add_tag` / `remove_tag`)
* `Links`   — `taskpaper/_links.py` (link grammar and `LinkCollection`)

Strings are modelled as `List Char`, or `String` where no induction over the
characters is needed.  Fallible Python code (raising exceptions) is embedded
with `Option`/`Except` results.
-/

/-- Python's whitespace set: the characters matched by the regex class `\s`
on `str` patterns and stripped by `str.strip()` — ASCII whitespace, the
C1-control separators 0x1c–0x1f, NEL, NBSP, and the Unicode space
characters. -/
def isPySpace (c : Char) : Bool :=
  (0x9 ≤ c.toNat && c.toNat ≤ 0xd) || c.toNat == 0x20 ||
  (0x1c ≤ c.toNat && c.toNat ≤ 0x1f) || c.toNat == 0x85 || c.toNat == 0xa0 ||
  c.toNat == 0x1680 || (0x2000 ≤ c.toNat && c.toNat ≤ 0x200a) ||
  c.toNat == 0x2028 || c.toNat == 0x2029 || c.toNat == 0x202f ||
  c.toNat == 0x205f || c.toNat == 0x3000

/-- A list is a sublist of the list obtained by inserting one element
anywhere into it. -/
theorem sublist_insertIdx {α : Type} (a : α) :
    ∀ (n : Nat) (l : List α), l.Sublist (l.insertIdx n a)
  | 0, l => List.sublist_cons_self a l
  | _ + 1, [] => by simp [List.insertIdx]
  | n + 1, c :: l => by
      simpa [List.insertIdx_succ_cons] using (sublist_insertIdx a n l).cons₂ c

/-- Deleting the element at an index gives a sublist of the list with that
index overwritten instead. -/
theorem eraseIdx_sublist_set {α : Type} (a : α) :
    ∀ (n : Nat) (l : List α), (l.eraseIdx n).Sublist (l.set n a)
  | _, [] => by simp
  | 0, c :: l => (List.sublist_cons_self a l)
  | n + 1, c :: l => by
      simpa using (eraseIdx_sublist_set a n l).cons₂ c

namespace Tags

/-- `TaskPaperTag` from `_tags.py`: a named tuple of tag name and value. -/
structure TaskPaperTag where
  name : String
  value : String
deriving DecidableEq, Repr

/-- `TagCollection._rearrange_for_done`: when at least one `done` tag is
present, the first such tag is kept, every `done` tag is removed from its
place, and the kept one is appended after all non-`done` tags. -/
def rearrangeForDone (ts : List TaskPaperTag) : List TaskPaperTag :=
  match ts.find? (fun t => t.name == "done") with
  | none => ts
  | some d => ts.filter (fun t => t.name != "done") ++ [d]

/-- `TagCollection.insert` (also reached by `append`, which the
`MutableSequence` mixin defines as `insert(len(self), value)`): a `done` tag
is inserted at position 0, any other tag at the requested position (Python's
`list.insert` clamps an over-large non-negative position to the end), then
`_rearrange_for_done` runs.  Only non-negative positions are modelled. -/
def insertTag (position : Nat) (t : TaskPaperTag) (ts : List TaskPaperTag) :
    List TaskPaperTag :=
  rearrangeForDone
    (if t.name == "done" then t :: ts
     else ts.insertIdx (min position ts.length) t)

/-- `TagCollection.__setitem__`: writing a `done` tag deletes the entry at
the given position and inserts the new tag at position 0; any other tag
replaces the entry in place; then `_rearrange_for_done` runs.  A position
`≥ len` raises `IndexError` (modelled as `none`) before any mutation. -/
def setTag (position : Nat) (t : TaskPaperTag) (ts : List TaskPaperTag) :
    Option (List TaskPaperTag) :=
  if position < ts.length then
    some (rearrangeForDone
      (if t.name == "done" then t :: ts.eraseIdx position
       else ts.set position t))
  else none

/-- One mutating operation on a `TagCollection`: `insert(pos, tag)` (with
`append(tag) = insert(len, tag)`) or `collection[pos] = tag`.  The stored
value is the already-coerced `TaskPaperTag`: `_coerce_value_to_tag` runs
before any mutation and does not touch the list. -/
inductive TagOp where
  | ins (position : Nat) (t : TaskPaperTag)
  | setIdx (position : Nat) (t : TaskPaperTag)
deriving Repr

def applyTagOp (ts : List TaskPaperTag) : TagOp → Option (List TaskPaperTag)
  | .ins p t => some (insertTag p t ts)
  | .setIdx p t => setTag p t ts

/-- A sequence of mutating operations starting from the empty collection
(`TagCollection.__init__`); `none` when some operation raised. -/
def applyTagOps (ops : List TagOp) : Option (List TaskPaperTag) :=
  ops.foldlM applyTagOp []

/-- Number of tags named `done` in the collection. -/
def doneCount (ts : List TaskPaperTag) : Nat :=
  ts.countP (fun t => t.name == "done")

theorem rearrangeForDone_of_none (ts : List TaskPaperTag)
    (h : ts.find? (fun t => t.name == "done") = none) :
    rearrangeForDone ts = ts := by
  unfold rearrangeForDone
  rw [h]

theorem rearrangeForDone_of_some (ts : List TaskPaperTag) (d : TaskPaperTag)
    (h : ts.find? (fun t => t.name == "done") = some d) :
    rearrangeForDone ts = ts.filter (fun t => t.name != "done") ++ [d] := by
  unfold rearrangeForDone
  rw [h]

/-- Rearranging never changes the subsequence of non-`done` tags. -/
theorem filter_rearrangeForDone (ts : List TaskPaperTag) :
    (rearrangeForDone ts).filter (fun t => t.name != "done")
      = ts.filter (fun t => t.name != "done") := by
  cases h : ts.find? (fun t => t.name == "done") with
  | none => rw [rearrangeForDone_of_none ts h]
  | some d =>
    have hd := List.find?_some h
    rw [rearrangeForDone_of_some ts d h]
    simp [List.filter_append, List.filter_filter, hd]
    exact eq_of_beq hd

/-- After `_rearrange_for_done`, at most one `done` tag is present, and if
one is present it is the final element. -/
theorem rearrangeForDone_invariant (ts : List TaskPaperTag) :
    doneCount (rearrangeForDone ts) ≤ 1 ∧
      ∀ t ∈ rearrangeForDone ts, t.name = "done" →
        (rearrangeForDone ts).getLast? = some t := by
  cases h : ts.find? (fun t => t.name == "done") with
  | none =>
    rw [rearrangeForDone_of_none ts h]
    have hnone := List.find?_eq_none.mp h
    constructor
    · unfold doneCount
      have : ts.countP (fun t => t.name == "done") = 0 := by
        apply List.countP_eq_zero.mpr
        intro t ht
        simpa using hnone t ht
      omega
    · intro t ht hname
      have := hnone t ht
      simp [hname] at this
  | some d =>
    rw [rearrangeForDone_of_some ts d h]
    constructor
    · unfold doneCount
      rw [List.countP_append]
      have h1 : (ts.filter (fun t => t.name != "done")).countP
          (fun t => t.name == "done") = 0 := by
        apply List.countP_eq_zero.mpr
        intro t ht
        have := (List.mem_filter.mp ht).2
        simpa using this
      have h2 : [d].countP (fun t => t.name == "done") ≤ 1 :=
        List.countP_le_length _
      omega
    · intro t ht hname
      rcases List.mem_append.mp ht with hmem | hmem
      · have := (List.mem_filter.mp hmem).2
        simp [hname] at this
      · have : t = d := by simpa using hmem
        subst this
        exact List.getLast?_concat _

/-- Every single mutating operation leaves the collection with at most one
`done` tag, sitting at the end if present. -/
theorem applyTagOp_invariant (ts res : List TaskPaperTag) (op : TagOp)
    (h : applyTagOp ts op = some res) :
    doneCount res ≤ 1 ∧
      ∀ t ∈ res, t.name = "done" → res.getLast? = some t := by
  cases op with
  | ins p t =>
    simp only [applyTagOp, Option.some.injEq] at h
    subst h
    exact rearrangeForDone_invariant _
  | setIdx p t =>
    simp only [applyTagOp, setTag] at h
    split at h
    · simp only [Option.some.injEq] at h
      subst h
      exact rearrangeForDone_invariant _
    · exact absurd h (by simp)

theorem applyTagOps_aux (ops : List TagOp) :
    ∀ s ts, (doneCount s ≤ 1 ∧ ∀ t ∈ s, t.name = "done" → s.getLast? = some t) →
      ops.foldlM applyTagOp s = some ts →
      doneCount ts ≤ 1 ∧ ∀ t ∈ ts, t.name = "done" → ts.getLast? = some t := by
  induction ops with
  | nil =>
    intro s ts hs h
    simp only [List.foldlM_nil, Option.pure_def, Option.some.injEq] at h
    subst h; exact hs
  | cons op ops ih =>
    intro s ts hs h
    simp only [List.foldlM_cons] at h
    cases hstep : applyTagOp s op with
    | none => simp [hstep] at h
    | some s1 =>
      rw [hstep] at h
      exact ih s1 ts (applyTagOp_invariant s s1 op hstep) h

theorem insertTag_filter_sublist (p : Nat) (t : TaskPaperTag)
    (ts : List TaskPaperTag) :
    (ts.filter (fun x => x.name != "done")).Sublist
      ((insertTag p t ts).filter (fun x => x.name != "done")) := by
  unfold insertTag
  rw [filter_rearrangeForDone]
  cases h : (t.name == "done") with
  | true =>
    rw [if_pos rfl]
    have : (t.name != "done") = false := by simp [bne, h]
    simp [List.filter_cons, this]
  | false =>
    rw [if_neg Bool.false_ne_true]
    exact (sublist_insertIdx t _ ts).filter _

theorem setTag_filter_sublist (p : Nat) (t : TaskPaperTag)
    (ts ts' : List TaskPaperTag) (h : setTag p t ts = some ts') :
    ((ts.eraseIdx p).filter (fun x => x.name != "done")).Sublist
      (ts'.filter (fun x => x.name != "done")) := by
  unfold setTag at h
  split at h
  · simp only [Option.some.injEq] at h
    subst h
    rw [filter_rearrangeForDone]
    cases hd : (t.name == "done") with
    | true =>
      rw [if_pos rfl]
      have : (t.name != "done") = false := by simp [bne, hd]
      simp [List.filter_cons, this]
    | false =>
      rw [if_neg Bool.false_ne_true]
      exact (eraseIdx_sublist_set t p ts).filter _
  · exact absurd h (by simp)

theorem filter_done_of_first_done (t : TaskPaperTag) (l : List TaskPaperTag)
    (hd : (t.name == "done") = true) :
    (rearrangeForDone (t :: l)).filter (fun x => x.name == "done") = [t] := by
  rw [rearrangeForDone_of_some (t :: l) t (List.find?_cons_of_pos l hd)]
  rw [List.filter_append, List.filter_filter]
  have : (fun x : TaskPaperTag => (x.name == "done") && (x.name != "done"))
      = fun _ => false := by
    funext x
    cases hx : (x.name == "done") <;> simp [bne, hx]
  simp [this, List.filter_cons, hd]

theorem insertTag_done_replaces (p : Nat) (t : TaskPaperTag)
    (ts : List TaskPaperTag) (hname : t.name = "done") :
    (insertTag p t ts).filter (fun x => x.name == "done") = [t] := by
  have hd : (t.name == "done") = true := by simp [hname]
  unfold insertTag
  rw [if_pos hd]
  exact filter_done_of_first_done t ts hd

theorem setTag_done_replaces (p : Nat) (t : TaskPaperTag)
    (ts ts' : List TaskPaperTag) (hname : t.name = "done")
    (h : setTag p t ts = some ts') :
    ts'.filter (fun x => x.name == "done") = [t] := by
  have hd : (t.name == "done") = true := by simp [hname]
  unfold setTag at h
  rw [if_pos hd] at h
  split at h
  · simp only [Option.some.injEq] at h
    subst h
    exact filter_done_of_first_done t _ hd
  · exact absurd h (by simp)

end Tags

/-- C1: over any sequence of mutating `TagCollection` operations (insert,
append, or index assignment) starting from the empty collection, at most one
tag named `done` exists afterwards and, when present, it is the last tag of
the sequence (hence serialized last); each single operation keeps the
surviving non-`done` tags in their relative order (the previous non-`done`
subsequence — minus the entry overwritten by an index assignment — is a
sublist of the new one); and an operation that writes a `done` tag leaves
the newly written tag as the sole `done` tag, replacing any pre-existing
one. -/
theorem C1_done_tag_invariant :
    (∀ (ops : List Tags.TagOp) (ts : List Tags.TaskPaperTag),
        Tags.applyTagOps ops = some ts →
          Tags.doneCount ts ≤ 1 ∧
            ∀ t ∈ ts, t.name = "done" → ts.getLast? = some t) ∧
      (∀ (p : Nat) (t : Tags.TaskPaperTag) (ts : List Tags.TaskPaperTag),
          (ts.filter (fun x => x.name != "done")).Sublist
            ((Tags.insertTag p t ts).filter (fun x => x.name != "done"))) ∧
      (∀ (p : Nat) (t : Tags.TaskPaperTag) (ts ts' : List Tags.TaskPaperTag),
          Tags.setTag p t ts = some ts' →
            ((ts.eraseIdx p).filter (fun x => x.name != "done")).Sublist
              (ts'.filter (fun x => x.name != "done"))) ∧
      (∀ (p : Nat) (t : Tags.TaskPaperTag) (ts : List Tags.TaskPaperTag),
          t.name = "done" →
            (Tags.insertTag p t ts).filter (fun x => x.name == "done") = [t]) ∧
      (∀ (p : Nat) (t : Tags.TaskPaperTag) (ts ts' : List Tags.TaskPaperTag),
          t.name = "done" → Tags.setTag p t ts = some ts' →
            ts'.filter (fun x => x.name == "done") = [t]) := by
  refine ⟨?_, Tags.insertTag_filter_sublist, Tags.setTag_filter_sublist,
    Tags.insertTag_done_replaces, Tags.setTag_done_replaces⟩
  intro ops ts h
  refine Tags.applyTagOps_aux ops [] ts ⟨?_, ?_⟩ h
  · simp [Tags.doneCount]
  · intro t ht
    exact absurd ht (by simp)

/-- Witness for C1: the operation sequence `insert(0, ("done", "now"))` then
`insert(0, ("foo", ""))` succeeds and yields `[("foo", ""), ("done", "now")]`,
for which the invariant holds. -/
theorem C1_witness :
    Tags.doneCount [⟨"foo", ""⟩, ⟨"done", "now"⟩] ≤ 1 ∧
      ∀ t ∈ ([⟨"foo", ""⟩, ⟨"done", "now"⟩] : List Tags.TaskPaperTag),
        t.name = "done" →
          ([⟨"foo", ""⟩, ⟨"done", "now"⟩] :
              List Tags.TaskPaperTag).getLast? = some t :=
  C1_done_tag_invariant.1
    [.ins 0 ⟨"done", "now"⟩, .ins 0 ⟨"foo", ""⟩]
    [⟨"foo", ""⟩, ⟨"done", "now"⟩] rfl

namespace Outline

/-- The parent/child state of an arena of items; item `i`'s parent is
`parent[i]` and its list of children is `children[i]`.  Python object
identity (`is`) between items is index equality. -/
structure OutlineState where
  parent : List (Option Nat)
  children : List (List Nat)
deriving DecidableEq, Repr

/-- `TaskPaperItem.ancestors` of item `i`: the chain parent, grandparent, …
stopping at the first item with no parent.  The Python generator is
unbounded (it loops forever on a cyclic chain); `fuel` bounds the walk, and
any `fuel ≥ number of items` is exact on an acyclic state. -/
def ancestorsFrom (parent : List (Option Nat)) : Nat → Nat → List Nat
  | 0, _ => []
  | fuel + 1, i =>
    match parent.getD i none with
    | none => []
    | some p => p :: ancestorsFrom parent fuel p

/-- The mutation half of the `TaskPaperItem.parent` setter: remove `i` from
its old parent's children (Python `list.remove`, dropping the first
occurrence; in every state built through the API the child occurs exactly
once there), append `i` to the new parent's children, store the new
parent. -/
def relink (s : OutlineState) (i : Nat) (np : Option Nat) : OutlineState :=
  let ch1 := match s.parent.getD i none with
    | some op => s.children.set op ((s.children.getD op []).erase i)
    | none => s.children
  let ch2 := match np with
    | some p => ch1.set p ((ch1.getD p []) ++ [i])
    | none => ch1
  { parent := s.parent.set i np, children := ch2 }

inductive OutlineError where
  | circularRelationship
deriving DecidableEq, Repr

/-- The `TaskPaperItem.parent` setter: a no-op when the new parent is
already the current one; an error (Python raises `TaskPaperError` with the
circular-family-tree message) when `i` occurs among the new parent's
ancestors, rejecting the mutation before any state is touched; otherwise
the relink runs.  The result is (raised error, state after the call). -/
def setParent (fuel : Nat) (s : OutlineState) (i : Nat) (np : Option Nat) :
    Option OutlineError × OutlineState :=
  if s.parent.getD i none = np then (none, s)
  else
    match np with
    | some p =>
      if (ancestorsFrom s.parent fuel p).contains i then
        (some .circularRelationship, s)
      else (none, relink s i np)
    | none => (none, relink s i none)

/-- A fresh arena of one item `0` with no parent and no children, as built
by `TaskPaperItem.__init__` without a `parent` argument. -/
def singleItem : OutlineState := ⟨[none], [[]]⟩

end Outline

/-- C2: the parent/child graph stays acyclic, and in particular
`a.set_parent(a)` is rejected or a no-op.  REFUTED by the code: on a fresh
item, setting the item as its own parent raises nothing, appends the item
to its own children, and afterwards the item occurs in its own ancestor
chain — a silent one-node cycle.  (The setter only scans the *strict*
ancestors of the new parent, so `new_parent is self` is never noticed.) -/
theorem C2_self_parent_creates_cycle :
    Outline.setParent 1 Outline.singleItem 0 (some 0)
        = (none, ⟨[some 0], [[0]]⟩) ∧
      (Outline.ancestorsFrom [some 0] 1 0).contains 0 = true := by
  constructor
  · rfl
  · rfl

/-- C3: making an item the parent of one of its ancestors fails with the
circular-relationship error, and the failing call mutates nothing: the
returned state is exactly the input state (every parent reference and every
children list unchanged). -/
theorem C3_cycle_rejected_without_mutation (fuel : Nat) (s : Outline.OutlineState)
    (i p : Nat)
    (hnp : s.parent.getD i none ≠ some p)
    (hanc : (Outline.ancestorsFrom s.parent fuel p).contains i = true) :
    Outline.setParent fuel s i (some p)
      = (some .circularRelationship, s) := by
  unfold Outline.setParent
  rw [if_neg hnp]
  dsimp only
  rw [if_pos hanc]

/-- Witness for C3 on the concrete chain 0 → 1 → 2 (item 0's parent is 1,
item 1's parent is 2): setting item 0 as the parent of item 2 is rejected
and the state is returned unchanged. -/
theorem C3_witness :
    Outline.setParent 5 ⟨[some 1, some 2, none], [[], [0], [1]]⟩ 2 (some 0)
      = (some .circularRelationship, ⟨[some 1, some 2, none], [[], [0], [1]]⟩) :=
  C3_cycle_rejected_without_mutation 5 ⟨[some 1, some 2, none], [[], [0], [1]]⟩
    2 0 (by decide) (by decide)

namespace Items

/-- First-character class of the `TAG_REGEX` name group, transcribed from
the character ranges in `items.py` (taken from birch.js).  The ASCII letters
appear in both cases, so the `re.IGNORECASE` flag adds nothing for the
inputs considered here. -/
def isTagNameFirstChar (c : Char) : Bool :=
  let n := c.toNat
  (0x41 ≤ n && n ≤ 0x5a) || n == 0x5f || (0x61 ≤ n && n ≤ 0x7a) ||
  (0xc0 ≤ n && n ≤ 0xd6) || (0xd8 ≤ n && n ≤ 0xf6) ||
  (0xf8 ≤ n && n ≤ 0x2ff) || (0x370 ≤ n && n ≤ 0x37d) ||
  (0x37f ≤ n && n ≤ 0x1fff) || (0x200c ≤ n && n ≤ 0x200d) ||
  (0x2070 ≤ n && n ≤ 0x218f) || (0x2c00 ≤ n && n ≤ 0x2fef) ||
  (0x3001 ≤ n && n ≤ 0xd7ff) || (0xf900 ≤ n && n ≤ 0xfdcf) ||
  (0xfdf0 ≤ n && n ≤ 0xfffd)

/-- Continuation-character class of the `TAG_REGEX` name group
(`[\-.0-9·̀-ͯ‿-⁀]`). -/
def isTagNameOtherChar (c : Char) : Bool :=
  let n := c.toNat
  n == 0x2d || n == 0x2e || (0x30 ≤ n && n ≤ 0x39) || n == 0xb7 ||
  (0x300 ≤ n && n ≤ 0x36f) || (0x203f ≤ n && n ≤ 0x2040)

/-- A character usable anywhere in a tag name: the name group is
`(?:first|other)*`, a starred alternation, so every position accepts the
union of the two classes. -/
def isTagNameChar (c : Char) : Bool :=
  isTagNameFirstChar c || isTagNameOtherChar c

/-- One raw match of `TAG_REGEX`: the captured `name` group and the
optional `value` group (`None` when the parenthesized part is absent). -/
structure TagMatch where
  name : List Char
  value : Option (List Char)
deriving DecidableEq, Repr

/-- The lookahead `(?=\s|$)` closing `TAG_REGEX`: the next character is
whitespace or the input ends.  (Python's `$` also matches just before a
final newline, but a newline is itself `\s`, so the two cases collapse.) -/
def lookaheadOk (l : List Char) : Bool :=
  match l with
  | [] => true
  | c :: _ => isPySpace c

/-- The value part `(?:\\\)|[^\)])*\)` of `TAG_REGEX` followed by the final
lookahead, in Python's backtracking order: at each position the engine
first tries to consume an escaped `\)`, then any single character other
than `)`, and only then leaves the star to take the closing `)` — undoing
later choices on failure.  In the `\)` case the fallback (consume the `\`
as a plain character; then the star can only stop, taking the `)` as the
closing paren) is written out directly.  Returns the captured value and
the input remaining after the closing paren. -/
def valueStar : List Char → Option (List Char × List Char)
  | [] => none
  | ')' :: rest => if lookaheadOk rest then some ([], rest) else none
  | '\\' :: ')' :: rest' =>
    (match valueStar rest' with
     | some (v, r) => some ('\\' :: ')' :: v, r)
     | none => if lookaheadOk rest' then some (['\\'], rest') else none)
  | c :: rest => (valueStar rest).map (fun p => (c :: p.1, p.2))

/-- The optional `(?:\((?P<value>…)\))?` group: it participates only when
the next character is `(`. -/
def tryValueGroup (rest : List Char) : Option (List Char × List Char) :=
  match rest with
  | '(' :: r => valueStar r
  | _ => none

/-- The tail of `TAG_REGEX` after the literal `@`: a candidate name (held
in reverse in `revPre`), then the optional `(value)` group tried before
skipping it (`?` is greedy), then the lookahead; when everything fails the
engine gives one name character back to the input and retries.  The first
candidate tried is the maximal run of name characters. -/
def tryNameSplits : (revPre : List Char) → (rest : List Char) →
    Option (TagMatch × List Char)
  | [], rest =>
    match tryValueGroup rest with
    | some (v, r') => some (⟨[], some v⟩, r')
    | none => if lookaheadOk rest then some (⟨[], none⟩, rest) else none
  | c :: revPre', rest =>
    match tryValueGroup rest with
    | some (v, r') => some (⟨(c :: revPre').reverse, some v⟩, r')
    | none =>
      if lookaheadOk rest then some (⟨(c :: revPre').reverse, none⟩, rest)
      else tryNameSplits revPre' (c :: rest)

/-- `TAG_REGEX` from just after the `@` on. -/
def matchAfterAt (l : List Char) : Option (TagMatch × List Char) :=
  tryNameSplits (l.takeWhile isTagNameChar).reverse (l.dropWhile isTagNameChar)

/-- After the `\s+` boundary alternative has consumed the maximal
whitespace run, the pattern requires the literal `@` and continues with the
name/value part. -/
def matchAfterSpaces : List Char → Option (TagMatch × List Char)
  | '@' :: r' => matchAfterAt r'
  | _ => none

/-- An attempt to match `TAG_REGEX` at the current position: the boundary
`(?:^|\s+)` (the `^` branch only at the very start of the string; the `\s+`
branch consumes a maximal whitespace run — giving whitespace back cannot
help, because the pattern would then require `@` where a whitespace
character stands), the literal `@`, then the name/value part. -/
def tryMatchAt (atStart : Bool) (l : List Char) : Option (TagMatch × List Char) :=
  if atStart && (l.head? == some '@') then matchAfterAt l.tail
  else if (l.takeWhile isPySpace).isEmpty then none
  else matchAfterSpaces (l.dropWhile isPySpace)

theorem length_takeWhile_add_dropWhile {α : Type} (p : α → Bool) (l : List α) :
    (l.takeWhile p).length + (l.dropWhile p).length = l.length := by
  induction l with
  | nil => simp
  | cons c tl ih =>
    by_cases hp : p c
    · simp [List.takeWhile_cons, List.dropWhile_cons, hp]
      omega
    · simp [List.takeWhile_cons, List.dropWhile_cons, hp]

/-- Unfolding equation for `valueStar` in the default branch: the head
character is neither `)` nor the start of an escaped `\)`. -/
theorem valueStar_cons_default (c : Char) (rest : List Char)
    (h1 : c ≠ ')') (h2 : ∀ rest', c = '\\' → rest ≠ ')' :: rest') :
    valueStar (c :: rest) = (valueStar rest).map (fun p => (c :: p.1, p.2)) := by
  rw [valueStar.eq_def]
  split
  · rename_i heq
    exact absurd heq (by simp)
  · rename_i rest2 heq
    injection heq with heqc heqr
    exact absurd heqc h1
  · rename_i rest' heq
    injection heq with heqc heqr
    exact absurd heqr (h2 rest' heqc)
  · rename_i c2 rest2 hc1 hc2 heq
    injection heq with heqc heqr
    subst heqc
    subst heqr
    rfl

theorem valueStar_length_lt (l : List Char) :
    ∀ v r, valueStar l = some (v, r) → r.length < l.length := by
  induction l using valueStar.induct with
  | case1 => simp [valueStar]
  | case2 rest hla =>
    intro v r h
    simp only [valueStar, hla, if_true, Option.some.injEq, Prod.mk.injEq] at h
    simp [← h.2]
  | case3 rest hla =>
    intro v r h
    simp [valueStar, hla] at h
  | case4 rest' v0 r0 hv ih =>
    intro v r h
    simp only [valueStar, hv, Option.some.injEq, Prod.mk.injEq] at h
    have := ih v0 r0 hv
    simp only [← h.2]
    simp at this ⊢
    omega
  | case5 rest' hv hla ih =>
    intro v r h
    simp only [valueStar, hv, hla, if_true, Option.some.injEq, Prod.mk.injEq] at h
    rw [← h.2]
    simp
    omega
  | case6 rest' hv hla ih =>
    intro v r h
    simp [valueStar, hv, hla] at h
  | case7 c rest hs1 hs2 ih =>
    intro v r h
    rw [valueStar_cons_default c rest (fun hc => hs1 hc)
      (fun rest' hc hr => hs2 rest' hc hr)] at h
    cases hv : valueStar rest with
    | none => rw [hv] at h; exact absurd h (by simp)
    | some p =>
      rw [hv] at h
      simp only [Option.map_some', Option.some.injEq, Prod.mk.injEq] at h
      have := ih p.1 p.2 (by rw [hv])
      simp only [← h.2]
      simp at this ⊢
      omega

theorem tryValueGroup_length_lt (rest : List Char) (v r : List Char)
    (h : tryValueGroup rest = some (v, r)) : r.length < rest.length := by
  unfold tryValueGroup at h
  split at h
  · rename_i r0
    have := valueStar_length_lt r0 v r h
    simp at this ⊢
    omega
  · exact absurd h (by simp)

theorem tryNameSplits_length_le (revPre rest : List Char) :
    ∀ m r, tryNameSplits revPre rest = some (m, r) →
      r.length ≤ revPre.length + rest.length := by
  induction revPre, rest using tryNameSplits.induct with
  | case1 rest v r' hv =>
    intro m r h
    simp only [tryNameSplits, hv, Option.some.injEq, Prod.mk.injEq] at h
    have := tryValueGroup_length_lt rest v r' hv
    rw [← h.2]
    omega
  | case2 rest hv hla =>
    intro m r h
    simp only [tryNameSplits, hv, hla, if_true, Option.some.injEq,
      Prod.mk.injEq] at h
    rw [← h.2]
    omega
  | case3 rest hv hla =>
    intro m r h
    simp [tryNameSplits, hv, hla] at h
  | case4 c revPre' rest v r' hv =>
    intro m r h
    simp only [tryNameSplits, hv, Option.some.injEq, Prod.mk.injEq] at h
    have := tryValueGroup_length_lt rest v r' hv
    rw [← h.2]
    omega
  | case5 c revPre' rest hv hla =>
    intro m r h
    simp only [tryNameSplits, hv, hla, if_true, Option.some.injEq,
      Prod.mk.injEq] at h
    rw [← h.2]
    simp
  | case6 c revPre' rest hv hla ih =>
    intro m r h
    simp only [tryNameSplits, hv, hla, if_false] at h
    have := ih m r h
    simp at this ⊢
    omega

theorem matchAfterAt_length_le (l : List Char) (m : TagMatch) (r : List Char)
    (h : matchAfterAt l = some (m, r)) : r.length ≤ l.length := by
  unfold matchAfterAt at h
  have h1 := tryNameSplits_length_le _ _ m r h
  have h2 := length_takeWhile_add_dropWhile isTagNameChar l
  simp at h1
  omega

theorem matchAfterSpaces_length_le (l : List Char) (m : TagMatch)
    (r : List Char) (h : matchAfterSpaces l = some (m, r)) :
    r.length < l.length := by
  unfold matchAfterSpaces at h
  split at h
  · rename_i r'
    have := matchAfterAt_length_le _ _ _ h
    simp at this ⊢
    omega
  · exact absurd h (by simp)

theorem tryMatchAt_length_lt (atStart : Bool) (l : List Char) (m : TagMatch)
    (r : List Char) (h : tryMatchAt atStart l = some (m, r)) :
    r.length < l.length := by
  unfold tryMatchAt at h
  split at h
  · rename_i hcond
    cases l with
    | nil => simp at hcond
    | cons c rest =>
      have := matchAfterAt_length_le _ _ _ h
      simp at this ⊢
      omega
  · split at h
    · exact absurd h (by simp)
    · rename_i hsp
      have hlt := matchAfterSpaces_length_le _ _ _ h
      have hlen := length_takeWhile_add_dropWhile isPySpace l
      omega

/-- `TAG_REGEX.finditer` combined with `re.sub(TAG_REGEX, '', ·)`: scan
left to right; a successful match is recorded and the scan resumes right
after it (matches never overlap and are at least one character long); on
failure the scan advances one character, and that character survives into
the `re.sub` output (second component).  `fuel` only makes the recursion
structural: every step consumes at least one character, so any
`fuel ≥ l.length` computes the full scan (`tryMatchAt_length_lt`). -/
def scanSub : (fuel : Nat) → (l : List Char) → (atStart : Bool) →
    List TagMatch × List Char
  | 0, l, _ => ([], l)
  | _ + 1, [], _ => ([], [])
  | fuel + 1, c :: rest, atStart =>
    match tryMatchAt atStart (c :: rest) with
    | some (m, r) =>
      let p := scanSub fuel r false
      (m :: p.1, p.2)
    | none =>
      let p := scanSub fuel rest false
      (p.1, c :: p.2)

/-- A tag as stored by `_TagCollection` in `items.py`: the named tuple of
name and value, after coercion. -/
structure Tag where
  name : List Char
  value : List Char
deriving DecidableEq, Repr

/-- `_TagCollection._coerce_value_to_tag` applied to a `match.groups()`
2-tuple: a string value containing `)` raises `ValueError`; a missing
(`None`) value becomes the empty string (`value[1] or ''`). -/
def coerceMatch (m : TagMatch) : Except Unit Tag :=
  match m.value with
  | some v => if v.contains ')' then .error () else .ok ⟨m.name, v⟩
  | none => .ok ⟨m.name, []⟩

/-- The tag-collection part of `TaskPaperItem._parse`: each match's groups
are pushed with `self.tags.append(...)`, which the `MutableSequence` mixin
turns into `insert(len(self), ...)`, an append of the coerced tag; the
first coercion error aborts construction. -/
def tagsFromMatches (ms : List TagMatch) : Except Unit (List Tag) :=
  ms.foldlM (fun acc m => (coerceMatch m).map (fun t => acc ++ [t])) []

/-- Python `str.rstrip()` with no argument: trailing whitespace removed. -/
def pyRstrip (l : List Char) : List Char :=
  (l.reverse.dropWhile isPySpace).reverse

/-- Python `str.lstrip()` with no argument: leading whitespace removed. -/
def pyLstrip (l : List Char) : List Char :=
  l.dropWhile isPySpace

/-- Python `str.strip()` with no argument. -/
def pyStrip (l : List Char) : List Char :=
  pyLstrip (pyRstrip l)

/-- A `TaskPaperItem` from `items.py`: the stored text `self._text`, the
derived `self.body_text`, and the tag collection `self.tags`. -/
structure TPItem where
  text : List Char
  bodyText : List Char
  tags : List Tag
deriving DecidableEq, Repr

/-- `TaskPaperItem.__init__` / `_parse`: trailing whitespace is stripped
from the input, `TAG_REGEX.finditer` runs over the stored text and each
match's groups are appended to the tag collection, and `body_text` is the
text with the matched spans removed (`re.sub(TAG_REGEX, '', ...)`) and then
`.strip()`-ed.  An error from the tag coercion propagates out of the
constructor. -/
def parseItem (text : List Char) : Except Unit TPItem :=
  let t := pyRstrip text
  let scanned := scanSub t.length t true
  (tagsFromMatches scanned.1).map (fun ts => ⟨t, pyStrip scanned.2, ts⟩)

/-- `TaskPaperItem.add_tag(name, value)`: with `value=None` the bare name
is appended (string coercion, no check); otherwise the `(name, value)`
tuple is appended (tuple coercion, which rejects values containing
`)`). -/
def addTag (it : TPItem) (name : List Char) (value : Option (List Char)) :
    Except Unit TPItem :=
  (coerceMatch ⟨name, value⟩).map (fun t => { it with tags := it.tags ++ [t] })

/-- A sequence of `add_tag(name, value)` calls with explicit values. -/
def addTags (it : TPItem) (ps : List (List Char × List Char)) :
    Except Unit TPItem :=
  ps.foldlM (fun acc p => addTag acc p.1 (some p.2)) it

/-- The parenthesized value part of a rendered tag: absent for a falsy
(empty) value. -/
def valuePart (v : List Char) : List Char :=
  if v = [] then [] else '(' :: (v ++ [')'])

/-- The `@name(value)` (or bare `@name` for a falsy value) rendering used
by `TaskPaperItem.__str__`, together with the single join space that
precedes every tag component. -/
def serializeTag (t : Tag) : List Char :=
  ' ' :: '@' :: (t.name ++ valuePart t.value)

/-- `TaskPaperItem.__str__`: `' '.join([body_text] + tag components)`. -/
def strItem (it : TPItem) : List Char :=
  it.bodyText ++ (it.tags.map serializeTag).flatten

/-- The round-trip pipeline of the spec's law: construct an item from
`body`, `add_tag` each pair, render with `str`, construct a new item from
the rendering, and read off its tag collection. -/
def roundTrip (body : List Char) (ps : List (List Char × List Char)) :
    Except Unit (List Tag) := do
  let it ← parseItem body
  let it2 ← addTags it ps
  let it3 ← parseItem (strItem it2)
  pure it3.tags

/-- The loop of `TaskPaperItem.remove_tag`: Python's `for tag in self.tags`
drives the `MutableSequence` iterator, which reads index 0, 1, 2, … from
the list as it currently stands until the index falls off the end; a tag
matching the name (and the value, when one is given) is removed with
`list.remove`, dropping its first occurrence.  `fuel` only makes the
recursion structural: the index grows by one per step while the list never
grows, so any `fuel > length - index` computes the full loop. -/
def removeTagLoop (name : List Char) (value : Option (List Char)) :
    (fuel i : Nat) → List Tag → List Tag
  | 0, _, ts => ts
  | fuel + 1, i, ts =>
    match ts[i]? with
    | none => ts
    | some t =>
      if t.name = name ∧ (value = none ∨ value = some t.value) then
        removeTagLoop name value fuel (i + 1) (ts.erase t)
      else
        removeTagLoop name value fuel (i + 1) ts

/-- `TaskPaperItem.remove_tag(name, value=None)` on an item. -/
def removeTag (it : TPItem) (name : List Char) (value : Option (List Char)) :
    TPItem :=
  { it with tags := removeTagLoop name value (it.tags.length + 1) 0 it.tags }

theorem coerceMatch_ok (m : TagMatch) (t : Tag) (h : coerceMatch m = .ok t) :
    t = ⟨m.name, m.value.getD []⟩ := by
  cases m with
  | mk name value =>
    cases value with
    | none =>
      simp only [coerceMatch, Except.ok.injEq] at h
      simp [← h]
    | some v =>
      simp only [coerceMatch] at h
      split at h
      · exact absurd h (by simp)
      · simp only [Except.ok.injEq] at h
        simp [← h]

theorem tagsFromMatches_ok (ms : List TagMatch) :
    ∀ acc ts,
      ms.foldlM (fun acc m => (coerceMatch m).map (fun t => acc ++ [t])) acc
          = .ok ts →
        ts = acc ++ ms.map (fun m => Tag.mk m.name (m.value.getD [])) := by
  induction ms with
  | nil =>
    intro acc ts h
    simp only [List.foldlM_nil] at h
    cases h
    simp
  | cons m ms ih =>
    intro acc ts h
    simp only [List.foldlM_cons] at h
    cases hc : coerceMatch m with
    | error e =>
      rw [hc] at h
      exact absurd h (by simp [Except.map, Bind.bind, Except.bind])
    | ok t =>
      rw [hc] at h
      simp only [Except.map, Except.bind] at h
      have := ih (acc ++ [t]) ts h
      rw [this, coerceMatch_ok m t hc]
      simp

end Items

/-- C6: a candidate tag occurrence immediately followed by a character
other than whitespace or end-of-string is not extracted: each of
`'hello world @tag)'`, `'hello world @tag())'` and
`'hello world @tag(value)a'` constructs an item whose tag collection is
empty. -/
theorem C6_trailing_nonsense_not_extracted :
    (Items.parseItem "hello world @tag)".toList).map Items.TPItem.tags
        = .ok [] ∧
      (Items.parseItem "hello world @tag())".toList).map Items.TPItem.tags
        = .ok [] ∧
      (Items.parseItem "hello world @tag(value)a".toList).map Items.TPItem.tags
        = .ok [] :=
  ⟨by rfl, by rfl, by rfl⟩

/-- C5: for every item text whose construction succeeds, the tag collection
built by `_parse` (appending each match's groups through the collection's
`insert`) equals, in order, the sequence of `@name(value)` occurrences of
the `TAG_REGEX` scan over the item's stored text, with a missing value
normalized to the empty string.  In `items.py` no `done` reordering exists,
so occurrence order is preserved for every name, in particular all
non-`done` names. -/
theorem C5_tags_equal_regex_scan (text : List Char) (it : Items.TPItem)
    (h : Items.parseItem text = .ok it) :
    it.tags = (Items.scanSub (Items.pyRstrip text).length (Items.pyRstrip text)
        true).1.map
      (fun m => Items.Tag.mk m.name (m.value.getD [])) := by
  simp only [Items.parseItem] at h
  cases hm : Items.tagsFromMatches (Items.scanSub (Items.pyRstrip text).length
      (Items.pyRstrip text) true).1 with
  | error e => rw [hm] at h; exact absurd h (by simp [Except.map])
  | ok ts =>
    rw [hm] at h
    simp only [Except.map, Except.ok.injEq] at h
    have := Items.tagsFromMatches_ok _ [] ts hm
    rw [← h]
    simpa using this

/-- Witness for C5 at the text `'quick @brown(fox) @jumps'`. -/
theorem C5_witness :
    (Items.TPItem.mk "quick @brown(fox) @jumps".toList "quick".toList
        [⟨"brown".toList, "fox".toList⟩, ⟨"jumps".toList, []⟩]).tags
      = (Items.scanSub (Items.pyRstrip "quick @brown(fox) @jumps".toList).length
            (Items.pyRstrip "quick @brown(fox) @jumps".toList)
            true).1.map (fun m => Items.Tag.mk m.name (m.value.getD [])) :=
  C5_tags_equal_regex_scan "quick @brown(fox) @jumps".toList _ rfl

/-- C10: `remove_tag(name)` claims (docstring: "Remove all tags with the
given name") to delete every tag with the name, but the loop iterates by
index over the list it is mutating, so when two matching tags are adjacent
the removal of the first shifts the second under the already-passed index:
on `'x @foo(bar) @foo(baz)'`, `remove_tag('foo')` leaves `@foo(baz)`
behind. -/
theorem C10_remove_tag_skips_adjacent_duplicate :
    (Items.parseItem "x @foo(bar) @foo(baz)".toList).map
        (fun it => (Items.removeTag it "foo".toList none).tags)
      = .ok [⟨"foo".toList, "baz".toList⟩] :=
  rfl

namespace Items

/-- With no tag of the given name present, the `remove_tag` loop only walks
the indices and never changes the list. -/
theorem removeTagLoop_no_match (name : List Char) (value : Option (List Char))
    (ts : List Tag) (h : ∀ t ∈ ts, t.name ≠ name) :
    ∀ fuel i, removeTagLoop name value fuel i ts = ts := by
  intro fuel
  induction fuel with
  | zero => intro i; rfl
  | succ fuel ih =>
    intro i
    rw [removeTagLoop]
    cases hti : ts[i]? with
    | none => rfl
    | some t =>
      have hmem : t ∈ ts := by
        obtain ⟨hlt, hget⟩ := List.getElem?_eq_some_iff.mp hti
        exact hget ▸ List.getElem_mem hlt
      dsimp only
      rw [if_neg (fun hcon => (h t hmem) hcon.1)]
      exact ih (i + 1)

end Items

/-- C8: a counterexample to "deleting a tag by an absent name fails with
NoSuchTag": on the item `'hello @foo'`, `remove_tag('bar')` completes
normally — `remove_tag` has no raising path at all, its loop simply finds
nothing to remove — and returns the item unchanged. -/
theorem C8_counterexample_remove_absent_is_silent :
    (Items.parseItem "hello @foo".toList).map
        (fun it => Items.removeTag it "bar".toList none)
      = Except.ok ⟨"hello @foo".toList, "hello".toList, [⟨"foo".toList, []⟩]⟩ :=
  rfl

/-- C8 (amended): deleting by a name that no tag of the item bears is a
silent no-op: no error is raised and the item is unchanged. -/
theorem C8_remove_absent_name_unchanged (it : Items.TPItem) (name : List Char)
    (h : ∀ t ∈ it.tags, t.name ≠ name) :
    Items.removeTag it name none = it := by
  cases it with
  | mk tx bd tg =>
    unfold Items.removeTag
    simp only
    rw [Items.removeTagLoop_no_match name none tg h]

/-- Witness for the amended C8 on the item built from `'hello @foo'`. -/
theorem C8_witness :
    Items.removeTag ⟨"hello @foo".toList, "hello".toList,
        [⟨"foo".toList, []⟩]⟩ "bar".toList none
      = ⟨"hello @foo".toList, "hello".toList, [⟨"foo".toList, []⟩]⟩ :=
  C8_remove_absent_name_unchanged _ _ (by decide)

/-- C4: counterexamples to the round-trip law as stated (which only asks
that values contain no unescaped `)`).  A tag whose name is not made of
tag-name characters serializes to text the regex will not match back
(`@!` is scanned as no tag at all), and a value ending in a backslash
merges with a following tag during re-parsing: `'hello @a(x\) @b(y)'` is
scanned as the single tag `('a', 'x\) @b(y')`, whose value contains `)`
and therefore makes the re-construction raise `ValueError`. -/
theorem C4_counterexample_roundtrip :
    Items.roundTrip "hello".toList [("!".toList, "".toList)] = Except.ok [] ∧
      Items.roundTrip "hello".toList
          [("a".toList, "x\\".toList), ("b".toList, "y".toList)]
        = Except.error () :=
  ⟨rfl, rfl⟩

namespace Items

theorem takeWhile_append_all {α : Type} (p : α → Bool) (l s : List α)
    (h : ∀ x ∈ l, p x = true) :
    (l ++ s).takeWhile p = l ++ s.takeWhile p := by
  induction l with
  | nil => simp
  | cons c l ih =>
    have hc := h c (by simp)
    simp [List.takeWhile_cons, hc, ih (fun x hx => h x (by simp [hx]))]

theorem dropWhile_append_all {α : Type} (p : α → Bool) (l s : List α)
    (h : ∀ x ∈ l, p x = true) :
    (l ++ s).dropWhile p = s.dropWhile p := by
  induction l with
  | nil => simp
  | cons c l ih =>
    have hc := h c (by simp)
    simp [List.dropWhile_cons, hc, ih (fun x hx => h x (by simp [hx]))]

theorem takeWhile_append_stop {α : Type} (p : α → Bool) (l s : List α)
    (h : ∃ x ∈ l, p x = false) :
    (l ++ s).takeWhile p = l.takeWhile p := by
  induction l with
  | nil => simp at h
  | cons c l ih =>
    by_cases hc : p c
    · obtain ⟨x, hx, hpx⟩ := h
      have hxl : x ∈ l := by
        cases List.mem_cons.mp hx with
        | inl he => rw [he] at hpx; rw [hpx] at hc; simp at hc
        | inr hm => exact hm
      simp [List.takeWhile_cons, hc, ih ⟨x, hxl, hpx⟩]
    · simp [List.takeWhile_cons, hc]

theorem dropWhile_append_stop {α : Type} (p : α → Bool) (l s : List α)
    (h : ∃ x ∈ l, p x = false) :
    (l ++ s).dropWhile p = l.dropWhile p ++ s := by
  induction l with
  | nil => simp at h
  | cons c l ih =>
    by_cases hc : p c
    · obtain ⟨x, hx, hpx⟩ := h
      have hxl : x ∈ l := by
        cases List.mem_cons.mp hx with
        | inl he => rw [he] at hpx; rw [hpx] at hc; simp at hc
        | inr hm => exact hm
      simp [List.dropWhile_cons, hc, ih ⟨x, hxl, hpx⟩]
    · simp [List.dropWhile_cons, hc]

theorem head_dropWhile_false {α : Type} (p : α → Bool) (l : List α) :
    ∀ c r, l.dropWhile p = c :: r → p c = false := by
  induction l with
  | nil => intro c r h; simp at h
  | cons a l ih =>
    intro c r h
    rw [List.dropWhile_cons] at h
    by_cases ha : p a
    · rw [if_pos ha] at h
      exact ih c r h
    · rw [if_neg ha] at h
      cases h
      simpa using ha

theorem mem_pyRstrip (l : List Char) (c : Char) (h : c ∈ pyRstrip l) :
    c ∈ l := by
  unfold pyRstrip at h
  rw [List.mem_reverse] at h
  have := (List.dropWhile_suffix (l := l.reverse) isPySpace).sublist.subset h
  simpa using this

theorem mem_pyStrip (l : List Char) (c : Char) (h : c ∈ pyStrip l) : c ∈ l := by
  unfold pyStrip pyLstrip at h
  exact mem_pyRstrip l c
    ((List.dropWhile_suffix (l := pyRstrip l) isPySpace).sublist.subset h)

theorem pyRstrip_last_not_space (l : List Char) (c : Char)
    (h : (pyRstrip l).getLast? = some c) : isPySpace c = false := by
  unfold pyRstrip at h
  rw [List.getLast?_reverse] at h
  cases hd : l.reverse.dropWhile isPySpace with
  | nil => rw [hd] at h; simp at h
  | cons a r =>
    rw [hd] at h
    simp only [List.head?_cons, Option.some.injEq] at h
    rw [← h]
    exact head_dropWhile_false isPySpace l.reverse a r hd

theorem getLast?_suffix {α : Type} (l₁ l₂ : List α) (h : l₁ <:+ l₂)
    (hne : l₁ ≠ []) : l₂.getLast? = l₁.getLast? := by
  obtain ⟨t, rfl⟩ := h
  exact List.getLast?_append_of_ne_nil t hne

theorem pyStrip_last_not_space (l : List Char) (c : Char)
    (h : (pyStrip l).getLast? = some c) : isPySpace c = false := by
  unfold pyStrip pyLstrip at h
  have hsuf := List.dropWhile_suffix (l := pyRstrip l) isPySpace
  cases hd : (pyRstrip l).dropWhile isPySpace with
  | nil => rw [hd] at h; simp at h
  | cons a r =>
    rw [hd] at h
    have := getLast?_suffix _ _ hsuf (by rw [hd]; simp)
    rw [hd] at this
    exact pyRstrip_last_not_space l c (by rw [this, ← h])

theorem pyRstrip_eq_self (l : List Char)
    (h : ∀ c, l.getLast? = some c → isPySpace c = false) : pyRstrip l = l := by
  unfold pyRstrip
  cases hr : l.reverse with
  | nil =>
    have : l = [] := by simpa using congrArg List.reverse hr
    simp [this]
  | cons a r =>
    have hlast : l.getLast? = some a := by
      rw [← List.head?_reverse, hr]
      rfl
    have hpa := h a hlast
    rw [List.dropWhile_cons, if_neg (by simp [hpa])]
    rw [← hr, List.reverse_reverse]

theorem scanSub_nil (fuel : Nat) (a : Bool) : scanSub fuel [] a = ([], []) := by
  cases fuel <;> rfl

theorem scanSub_step_match (fuel : Nat) (c : Char) (rest r : List Char)
    (a : Bool) (m : TagMatch) (hm : tryMatchAt a (c :: rest) = some (m, r)) :
    scanSub (fuel + 1) (c :: rest) a
      = (m :: (scanSub fuel r false).1, (scanSub fuel r false).2) := by
  simp only [scanSub, hm]

theorem scanSub_step_none (fuel : Nat) (c : Char) (rest : List Char) (a : Bool)
    (h : tryMatchAt a (c :: rest) = none) :
    scanSub (fuel + 1) (c :: rest) a
      = ((scanSub fuel rest false).1, c :: (scanSub fuel rest false).2) := by
  simp only [scanSub, h]

theorem tryMatchAt_start_irrel (a : Bool) (l : List Char)
    (h : l.head? ≠ some '@') : tryMatchAt a l = tryMatchAt false l := by
  unfold tryMatchAt
  rw [show (l.head? == some '@') = false from beq_eq_false_iff_ne.mpr h]
  simp

theorem scanSub_start_irrel (fuel : Nat) (l : List Char) (a : Bool)
    (h : l.head? ≠ some '@') : scanSub fuel l a = scanSub fuel l false := by
  cases fuel with
  | zero => rfl
  | succ f =>
    cases l with
    | nil => rfl
    | cons c rest => simp only [scanSub, tryMatchAt_start_irrel a _ h]

theorem scanSub_fuel_irrel (f1 : Nat) :
    ∀ (f2 : Nat) (l : List Char) (a : Bool), l.length ≤ f1 → l.length ≤ f2 →
      scanSub f1 l a = scanSub f2 l a := by
  induction f1 with
  | zero =>
    intro f2 l a h1 _
    have : l = [] := by
      cases l with
      | nil => rfl
      | cons c r => simp at h1
    subst this
    rw [scanSub_nil, scanSub_nil]
  | succ f ih =>
    intro f2 l a h1 h2
    cases l with
    | nil => rw [scanSub_nil, scanSub_nil]
    | cons c rest =>
      cases f2 with
      | zero => simp at h2
      | succ g =>
        cases hm : tryMatchAt a (c :: rest) with
        | some p =>
          obtain ⟨m, r⟩ := p
          have hlt := tryMatchAt_length_lt a _ m r hm
          rw [scanSub_step_match f c rest r a m hm,
            scanSub_step_match g c rest r a m hm,
            ih g r false (by simp at hlt h1 ⊢; omega)
              (by simp at hlt h2 ⊢; omega)]
        | none =>
          rw [scanSub_step_none f c rest a hm, scanSub_step_none g c rest a hm,
            ih g rest false (by simp at h1 ⊢; omega) (by simp at h2 ⊢; omega)]

end Items

namespace Items

/-- The raw `TagMatch` that re-scanning a rendered tag should produce. -/
def toMatch (t : Tag) : TagMatch :=
  ⟨t.name, if t.value = [] then none else some t.value⟩

/-- The tag shapes for which rendering and re-scanning are inverse: a
nonempty name of tag-name characters none of which is whitespace, and a
value containing no `)` and not ending in a backslash. -/
def goodTag (t : Tag) : Prop :=
  t.name ≠ [] ∧ (∀ c ∈ t.name, isTagNameChar c = true ∧ isPySpace c = false) ∧
    (∀ c ∈ t.value, c ≠ ')') ∧ t.value.getLast? ≠ some '\\'

instance (t : Tag) : Decidable (goodTag t) := by
  unfold goodTag
  infer_instance

theorem lookaheadOk_of (rest : List Char)
    (h : rest = [] ∨ rest.head? = some ' ') : lookaheadOk rest = true := by
  cases rest with
  | nil => rfl
  | cons c r =>
    cases h with
    | inl h0 => exact absurd h0 (by simp)
    | inr hh =>
      simp only [List.head?_cons, Option.some.injEq] at hh
      subst hh
      rfl

theorem head?_ne_paren (rest : List Char)
    (h : rest = [] ∨ rest.head? = some ' ') : rest.head? ≠ some '(' := by
  cases h with
  | inl h0 => subst h0; simp
  | inr hh => rw [hh]; simp

theorem getLast?_cons_ne_nil {α : Type} (a : α) (l : List α) (h : l ≠ []) :
    (a :: l).getLast? = l.getLast? := by
  cases l with
  | nil => exact absurd rfl h
  | cons b m => exact List.getLast?_cons_cons

theorem valueStar_exact (v : List Char) :
    ∀ rest, (∀ c ∈ v, c ≠ ')') → v.getLast? ≠ some '\\' →
      lookaheadOk rest = true →
      valueStar (v ++ ')' :: rest) = some (v, rest) := by
  induction v with
  | nil =>
    intro rest _ _ hla
    simp only [List.nil_append]
    simp [valueStar, hla]
  | cons c v' ih =>
    intro rest hnp hlast hla
    have hc : c ≠ ')' := hnp c (by simp)
    have hlast' : v'.getLast? ≠ some '\\' := by
      cases v' with
      | nil => simp
      | cons d v'' =>
        rw [List.getLast?_cons_cons] at hlast
        exact hlast
    have h2 : ∀ rest', c = '\\' → (v' ++ ')' :: rest) ≠ ')' :: rest' := by
      intro rest' hcc heq
      subst hcc
      cases hv' : v' with
      | nil =>
        apply hlast
        rw [hv']
        simp
      | cons d v'' =>
        have hd : d ≠ ')' := hnp d (by rw [hv']; simp)
        rw [hv'] at heq
        simp only [List.cons_append, List.cons.injEq] at heq
        exact hd heq.1
    rw [show (c :: v') ++ ')' :: rest = c :: (v' ++ ')' :: rest) from rfl]
    rw [valueStar_cons_default c _ hc h2]
    rw [ih rest (fun x hx => hnp x (by simp [hx])) hlast' hla]
    rfl

theorem tryValueGroup_paren (r : List Char) :
    tryValueGroup ('(' :: r) = valueStar r := rfl

theorem tryValueGroup_no_paren (rest : List Char)
    (h : rest.head? ≠ some '(') : tryValueGroup rest = none := by
  cases rest with
  | nil => rfl
  | cons c r =>
    have hc : c ≠ '(' := by simpa using h
    rw [tryValueGroup.eq_def]
    split
    · rename_i r2 heq
      injection heq with h1 _
      exact absurd h1 hc
    · rfl

theorem tryNameSplits_group_some (revPre rest v r' : List Char)
    (h : tryValueGroup rest = some (v, r')) :
    tryNameSplits revPre rest = some (⟨revPre.reverse, some v⟩, r') := by
  cases revPre <;> simp [tryNameSplits, h]

theorem tryNameSplits_group_none (revPre rest : List Char)
    (h : tryValueGroup rest = none) (hla : lookaheadOk rest = true) :
    tryNameSplits revPre rest = some (⟨revPre.reverse, none⟩, rest) := by
  cases revPre <;> simp [tryNameSplits, h, hla]

theorem matchAfterAt_serialized (t : Tag) (rest : List Char) (hg : goodTag t)
    (hrest : rest = [] ∨ rest.head? = some ' ') :
    matchAfterAt (t.name ++ (valuePart t.value ++ rest))
      = some (toMatch t, rest) := by
  obtain ⟨hn, hnc, hvp, hvl⟩ := hg
  have hX : ∀ x r', valuePart t.value ++ rest = x :: r' →
      isTagNameChar x = false := by
    intro x r' heq
    unfold valuePart at heq
    by_cases hv : t.value = []
    · rw [if_pos hv, List.nil_append] at heq
      cases hrest with
      | inl h0 => rw [h0] at heq; exact absurd heq (by simp)
      | inr hh =>
        rw [heq] at hh
        simp only [List.head?_cons, Option.some.injEq] at hh
        rw [hh]
        rfl
    · rw [if_neg hv] at heq
      simp only [List.cons_append, List.cons.injEq] at heq
      rw [← heq.1]
      rfl
  have htw2 : (valuePart t.value ++ rest).takeWhile isTagNameChar = [] := by
    cases hXl : valuePart t.value ++ rest with
    | nil => simp
    | cons x r' => rw [List.takeWhile_cons, if_neg (by simp [hX x r' hXl])]
  have hdw2 : (valuePart t.value ++ rest).dropWhile isTagNameChar
      = valuePart t.value ++ rest := by
    cases hXl : valuePart t.value ++ rest with
    | nil => simp
    | cons x r' => rw [List.dropWhile_cons, if_neg (by simp [hX x r' hXl])]
  unfold matchAfterAt
  rw [takeWhile_append_all _ _ _ (fun c hc => (hnc c hc).1), htw2,
    dropWhile_append_all _ _ _ (fun c hc => (hnc c hc).1), hdw2,
    List.append_nil]
  by_cases hv : t.value = []
  · have hXr : valuePart t.value ++ rest = rest := by
      simp [valuePart, hv]
    rw [hXr]
    rw [tryNameSplits_group_none _ _ (tryValueGroup_no_paren rest
      (head?_ne_paren rest hrest)) (lookaheadOk_of rest hrest)]
    simp [toMatch, hv]
  · have hXp : valuePart t.value ++ rest = '(' :: (t.value ++ ')' :: rest) := by
      simp [valuePart, hv]
    rw [hXp]
    rw [tryNameSplits_group_some _ _ t.value rest
      (by rw [tryValueGroup_paren]
          exact valueStar_exact t.value rest hvp hvl (lookaheadOk_of rest hrest))]
    simp [toMatch, hv]

theorem tryMatchAt_serialized (b : Bool) (t : Tag) (rest : List Char)
    (hg : goodTag t) (hrest : rest = [] ∨ rest.head? = some ' ') :
    tryMatchAt b (serializeTag t ++ rest) = some (toMatch t, rest) := by
  have hser : serializeTag t ++ rest
      = ' ' :: '@' :: (t.name ++ (valuePart t.value ++ rest)) := by
    simp [serializeTag]
  rw [hser]
  unfold tryMatchAt
  rw [show ((' ' :: '@' :: (t.name ++ (valuePart t.value ++ rest))).head?
      == some '@') = false from by rw [List.head?_cons]; rfl]
  rw [Bool.and_false, if_neg (by simp)]
  have ht : (' ' :: '@' :: (t.name ++ (valuePart t.value ++ rest))).takeWhile
      isPySpace = [' '] := by
    rw [List.takeWhile_cons, if_pos (by decide), List.takeWhile_cons,
      if_neg (by decide)]
  have hd : (' ' :: '@' :: (t.name ++ (valuePart t.value ++ rest))).dropWhile
      isPySpace = '@' :: (t.name ++ (valuePart t.value ++ rest)) := by
    rw [List.dropWhile_cons, if_pos (by decide), List.dropWhile_cons,
      if_neg (by decide)]
  rw [ht, hd]
  rw [if_neg (by simp)]
  exact matchAfterAt_serialized t rest hg hrest

end Items

namespace Items

theorem matchAfterSpaces_no_at (l : List Char) (h : l.head? ≠ some '@') :
    matchAfterSpaces l = none := by
  cases l with
  | nil => rfl
  | cons c r =>
    have hc : c ≠ '@' := by simpa using h
    rw [matchAfterSpaces.eq_def]
    split
    · rename_i r2 heq
      injection heq with h1 _
      exact absurd h1 hc
    · rfl

/-- No position inside a chunk of text that contains no `@`, and whose last
character is not whitespace, can start a `TAG_REGEX` match: the boundary is
either immediately followed by a non-`@` character of the chunk, or there
is no boundary at all. -/
theorem tryMatchAt_body_none (a : Bool) (body s : List Char) (hb : body ≠ [])
    (hat : ∀ c ∈ body, c ≠ '@')
    (hlast : ∀ c, body.getLast? = some c → isPySpace c = false) :
    tryMatchAt a (body ++ s) = none := by
  obtain ⟨c, body', rfl⟩ : ∃ c body', body = c :: body' := by
    cases body with
    | nil => exact absurd rfl hb
    | cons c b => exact ⟨c, b, rfl⟩
  have hc : c ≠ '@' := hat c (by simp)
  unfold tryMatchAt
  rw [show (((c :: body') ++ s).head? == some '@') = false from by
    simp only [List.cons_append, List.head?_cons]
    exact beq_eq_false_iff_ne.mpr (by simpa using hc)]
  rw [Bool.and_false, if_neg (by simp)]
  by_cases hsp : isPySpace c = true
  · have hgl : (c :: body').getLast ((by simp) : c :: body' ≠ []) ∈ c :: body' :=
      List.getLast_mem _
    have hglval := hlast _ (List.getLast?_eq_getLast (c :: body') (by simp))
    have hex : ∃ x ∈ c :: body', isPySpace x = false :=
      ⟨_, hgl, hglval⟩
    have hdw := dropWhile_append_stop isPySpace (c :: body') s hex
    have hne : (c :: body').dropWhile isPySpace ≠ [] := by
      intro h0
      obtain ⟨x, hx, hpx⟩ := hex
      have := List.dropWhile_eq_nil_iff.mp h0 x hx
      rw [this] at hpx
      simp at hpx
    obtain ⟨d, r, hd⟩ : ∃ d r, (c :: body').dropWhile isPySpace = d :: r := by
      cases hcase : (c :: body').dropWhile isPySpace with
      | nil => exact absurd hcase hne
      | cons d r => exact ⟨d, r, rfl⟩
    have hdmem : d ∈ c :: body' :=
      (List.dropWhile_suffix isPySpace).sublist.subset (by rw [hd]; simp)
    have hdat : d ≠ '@' := hat d hdmem
    rw [if_neg (by
      rw [takeWhile_append_stop isPySpace (c :: body') s hex]
      rw [List.takeWhile_cons, if_pos hsp]
      simp)]
    rw [hdw, hd]
    exact matchAfterSpaces_no_at _ (by simpa using hdat)
  · rw [if_pos (by
      rw [show (c :: body') ++ s = c :: (body' ++ s) from rfl]
      rw [List.takeWhile_cons, if_neg hsp]
      rfl)]

/-- Scanning text prefixed by a tag-free chunk (no `@`, no trailing
whitespace) scans the rest alone and keeps the chunk in the `re.sub`
output. -/
theorem scanSub_append_body (body : List Char) :
    ∀ (fuel : Nat) (s : List Char) (atStart : Bool),
      (body ++ s).length ≤ fuel →
      (∀ c ∈ body, c ≠ '@') →
      (∀ c, body.getLast? = some c → isPySpace c = false) →
      s.head? ≠ some '@' →
      scanSub fuel (body ++ s) atStart
        = ((scanSub s.length s false).1,
            body ++ (scanSub s.length s false).2) := by
  induction body with
  | nil =>
    intro fuel s a hf _ _ hhead
    simp only [List.nil_append]
    rw [scanSub_start_irrel fuel s a hhead]
    rw [scanSub_fuel_irrel fuel s.length s false (by simpa using hf)
      (Nat.le_refl _)]
  | cons c body' ih =>
    intro fuel s a hf hat hlast hhead
    have hnone : tryMatchAt a ((c :: body') ++ s) = none :=
      tryMatchAt_body_none a (c :: body') s (by simp) hat hlast
    cases fuel with
    | zero => simp at hf
    | succ f =>
      rw [show (c :: body') ++ s = c :: (body' ++ s) from rfl] at hnone ⊢
      rw [scanSub_step_none f c (body' ++ s) a hnone]
      rw [ih f s false (by simp at hf ⊢; omega)
        (fun x hx => hat x (by simp [hx]))
        (by
          intro x hx
          apply hlast
          cases hb' : body' with
          | nil => rw [hb'] at hx; exact absurd hx (by simp)
          | cons b bs =>
            rw [hb'] at hx
            rw [getLast?_cons_ne_nil c (b :: bs) (by simp), hx])
        hhead]
      rfl

/-- The rendering of a whole tag list: the concatenation of the rendered
tags, as `__str__` appends them after the body text. -/
def tagsStr (ts : List Tag) : List Char :=
  (ts.map serializeTag).flatten

theorem strItem_eq (it : TPItem) : strItem it = it.bodyText ++ tagsStr it.tags :=
  rfl

theorem tagsStr_cons (t : Tag) (ts : List Tag) :
    tagsStr (t :: ts) = serializeTag t ++ tagsStr ts := by
  simp [tagsStr]

theorem tagsStr_head (ts : List Tag) (h : ts ≠ []) :
    (tagsStr ts).head? = some ' ' := by
  cases ts with
  | nil => exact absurd rfl h
  | cons t ts' => rw [tagsStr_cons]; simp [serializeTag]

theorem tagsStr_nil_or_space (ts : List Tag) :
    tagsStr ts = [] ∨ (tagsStr ts).head? = some ' ' := by
  cases ts with
  | nil => exact Or.inl (by simp [tagsStr])
  | cons t ts' => exact Or.inr (tagsStr_head _ (by simp))

theorem serializeTag_last_not_space (t : Tag) (hg : goodTag t) :
    ∀ c, (serializeTag t).getLast? = some c → isPySpace c = false := by
  obtain ⟨hn, hnc, _, _⟩ := hg
  intro c hc
  unfold serializeTag at hc
  by_cases hv : t.value = []
  · rw [show valuePart t.value = [] from by simp [valuePart, hv],
      List.append_nil] at hc
    rw [getLast?_cons_ne_nil ' ' ('@' :: t.name) (by simp),
      getLast?_cons_ne_nil '@' t.name hn] at hc
    have hmem : c ∈ t.name := by
      rw [List.getLast?_eq_getLast t.name hn] at hc
      simp only [Option.some.injEq] at hc
      rw [← hc]
      exact List.getLast_mem hn
    exact (hnc c hmem).2
  · rw [show valuePart t.value = '(' :: (t.value ++ [')']) from by
      simp [valuePart, hv]] at hc
    rw [show (' ' :: '@' :: (t.name ++ '(' :: (t.value ++ [')'])))
        = (' ' :: '@' :: (t.name ++ '(' :: t.value)) ++ [')'] from by simp] at hc
    rw [List.getLast?_concat] at hc
    simp only [Option.some.injEq] at hc
    rw [← hc]
    rfl

end Items

namespace Items

theorem tagsStr_ne_nil (ts : List Tag) (h : ts ≠ []) : tagsStr ts ≠ [] := by
  intro h0
  have := tagsStr_head ts h
  rw [h0] at this
  simp at this

theorem tagsStr_last_not_space (ts : List Tag) (hg : ∀ t ∈ ts, goodTag t) :
    ∀ c, (tagsStr ts).getLast? = some c → isPySpace c = false := by
  induction ts with
  | nil => intro c hc; simp [tagsStr] at hc
  | cons t ts' ih =>
    intro c hc
    rw [tagsStr_cons] at hc
    by_cases hts' : ts' = []
    · rw [hts', show tagsStr [] = [] from rfl, List.append_nil] at hc
      exact serializeTag_last_not_space t (hg t (by simp)) c hc
    · rw [List.getLast?_append_of_ne_nil _ (tagsStr_ne_nil ts' hts')] at hc
      exact ih (fun u hu => hg u (by simp [hu])) c hc

theorem scanSub_tagsStr (ts : List Tag) :
    ∀ fuel, (tagsStr ts).length ≤ fuel → (∀ t ∈ ts, goodTag t) →
      scanSub fuel (tagsStr ts) false = (ts.map toMatch, []) := by
  induction ts with
  | nil =>
    intro fuel _ _
    rw [show tagsStr [] = [] from rfl, scanSub_nil]
    simp
  | cons t ts' ih =>
    intro fuel hf hg
    rw [tagsStr_cons] at hf ⊢
    have hm : tryMatchAt false (serializeTag t ++ tagsStr ts')
        = some (toMatch t, tagsStr ts') :=
      tryMatchAt_serialized false t _ (hg t (by simp)) (tagsStr_nil_or_space ts')
    cases fuel with
    | zero => simp [serializeTag] at hf
    | succ f =>
      rw [show serializeTag t ++ tagsStr ts'
          = ' ' :: ('@' :: (t.name ++ valuePart t.value) ++ tagsStr ts')
          from by simp [serializeTag]] at hm ⊢
      rw [scanSub_step_match f ' ' _ (tagsStr ts') false (toMatch t) hm]
      rw [ih f (by simp [serializeTag] at hf ⊢; omega)
        (fun u hu => hg u (by simp [hu]))]
      rfl

theorem contains_paren_false (v : List Char) (h : ∀ c ∈ v, c ≠ ')') :
    v.contains ')' = false := by
  induction v with
  | nil => rfl
  | cons c v' ih =>
    have hc : c ≠ ')' := h c (by simp)
    simp only [List.contains_cons, Bool.or_eq_false_iff]
    constructor
    · exact beq_eq_false_iff_ne.mpr (fun he => hc he.symm)
    · exact ih (fun x hx => h x (by simp [hx]))

theorem coerceMatch_toMatch (t : Tag) (h : ∀ c ∈ t.value, c ≠ ')') :
    coerceMatch (toMatch t) = .ok t := by
  unfold coerceMatch toMatch
  by_cases hv : t.value = []
  · rw [if_pos hv]
    simp only
    rw [← hv]
  · rw [if_neg hv]
    simp only
    rw [if_neg (by rw [contains_paren_false t.value h]; simp)]

theorem foldl_coerce_toMatch (ts : List Tag) :
    ∀ acc, (∀ t ∈ ts, ∀ c ∈ t.value, c ≠ ')') →
      (ts.map toMatch).foldlM
          (fun acc m => (coerceMatch m).map (fun t => acc ++ [t])) acc
        = .ok (acc ++ ts) := by
  induction ts with
  | nil =>
    intro acc _
    simp only [List.map_nil, List.foldlM_nil, List.append_nil]
    rfl
  | cons t ts' ih =>
    intro acc h
    simp only [List.map_cons, List.foldlM_cons]
    have hstep : (coerceMatch (toMatch t)).map (fun u => acc ++ [u])
        = Except.ok (acc ++ [t]) := by
      rw [coerceMatch_toMatch t (h t (by simp))]
      rfl
    rw [hstep]
    show (ts'.map toMatch).foldlM
        (fun acc m => (coerceMatch m).map (fun t => acc ++ [t])) (acc ++ [t])
      = Except.ok (acc ++ t :: ts')
    rw [ih (acc ++ [t]) (fun u hu => h u (by simp [hu]))]
    simp

theorem tagsFromMatches_toMatch (ts : List Tag)
    (h : ∀ t ∈ ts, ∀ c ∈ t.value, c ≠ ')') :
    tagsFromMatches (ts.map toMatch) = .ok ts := by
  have := foldl_coerce_toMatch ts [] h
  simpa [tagsFromMatches] using this

theorem addTags_ok (ps : List (List Char × List Char)) :
    ∀ it : TPItem, (∀ p ∈ ps, ∀ c ∈ p.2, c ≠ ')') →
      addTags it ps = .ok ⟨it.text, it.bodyText,
        it.tags ++ ps.map (fun p => Tag.mk p.1 p.2)⟩ := by
  induction ps with
  | nil =>
    intro it _
    simp only [addTags, List.foldlM_nil, List.map_nil, List.append_nil]
    rfl
  | cons p ps' ih =>
    intro it h
    have hadd : addTag it p.1 (some p.2)
        = .ok ⟨it.text, it.bodyText, it.tags ++ [⟨p.1, p.2⟩]⟩ := by
      unfold addTag coerceMatch
      simp only
      rw [if_neg (by rw [contains_paren_false p.2 (h p (by simp))]; simp)]
      rfl
    simp only [addTags, List.foldlM_cons]
    rw [hadd]
    show addTags ⟨it.text, it.bodyText, it.tags ++ [⟨p.1, p.2⟩]⟩ ps'
      = Except.ok ⟨it.text, it.bodyText,
          it.tags ++ (p :: ps').map (fun p => Tag.mk p.1 p.2)⟩
    have hih := ih ⟨it.text, it.bodyText, it.tags ++ [⟨p.1, p.2⟩]⟩
      (fun u hu => h u (by simp [hu]))
    rw [hih]
    simp

theorem parseItem_no_tags (body : List Char) (hat : ∀ c ∈ body, c ≠ '@') :
    parseItem body = .ok ⟨pyRstrip body, pyStrip (pyRstrip body), []⟩ := by
  have hscan : scanSub (pyRstrip body).length (pyRstrip body) true
      = ([], pyRstrip body) := by
    have := scanSub_append_body (pyRstrip body) (pyRstrip body).length [] true
      (by simp) (fun c hc => hat c (mem_pyRstrip body c hc))
      (pyRstrip_last_not_space body) (by simp)
    simpa [scanSub_nil] using this
  simp only [parseItem]
  rw [hscan]
  rfl

end Items

theorem except_bind_ok {α β : Type} (a : α) (f : α → Except Unit β) :
    (Except.ok a >>= f) = f a := rfl

open Items

/-- C4 (amended): the round-trip law — construct an item, `add_tag` each
pair, serialize with `str`, re-construct — returns exactly the original
tag list, provided the tags are ones the grammar can render and re-read:
every name is a nonempty string of tag-name characters none of which is
whitespace, every value contains no `)` at all (escaped or not — `add_tag`
rejects any `)`) and does not end in a backslash, and the base text
contains no `@`. -/
theorem C4_roundtrip_amended (body : List Char)
    (ps : List (List Char × List Char))
    (hbody : ∀ c ∈ body, c ≠ '@')
    (hps : ∀ p ∈ ps, goodTag ⟨p.1, p.2⟩) :
    roundTrip body ps = .ok (ps.map (fun p => Tag.mk p.1 p.2)) := by
  have h1 := parseItem_no_tags body hbody
  have hvals : ∀ p ∈ ps, ∀ c ∈ p.2, c ≠ ')' := fun p hp => (hps p hp).2.2.1
  have h2 := addTags_ok ps
    ⟨pyRstrip body, pyStrip (pyRstrip body), []⟩ hvals
  have hgood : ∀ t ∈ ps.map (fun p => Tag.mk p.1 p.2), goodTag t := by
    intro t ht
    simp only [List.mem_map] at ht
    obtain ⟨p, hp, rfl⟩ := ht
    exact hps p hp
  have hBat : ∀ c ∈ pyStrip (pyRstrip body), c ≠ '@' :=
    fun c hc => hbody c (mem_pyRstrip body c (mem_pyStrip _ c hc))
  have hBlast := pyStrip_last_not_space (pyRstrip body)
  have hlastBT : ∀ c, (pyStrip (pyRstrip body) ++
      tagsStr (ps.map (fun p => Tag.mk p.1 p.2))).getLast? = some c →
      isPySpace c = false := by
    intro c hc
    by_cases hps0 : ps.map (fun p => Tag.mk p.1 p.2) = []
    · rw [hps0, show tagsStr [] = [] from rfl, List.append_nil] at hc
      exact hBlast c hc
    · rw [List.getLast?_append_of_ne_nil _ (tagsStr_ne_nil _ hps0)] at hc
      exact tagsStr_last_not_space _ hgood c hc
  have hrs := pyRstrip_eq_self _ hlastBT
  have hheadT : (tagsStr (ps.map (fun p => Tag.mk p.1 p.2))).head?
      ≠ some '@' := by
    cases tagsStr_nil_or_space (ps.map (fun p => Tag.mk p.1 p.2)) with
    | inl h0 => rw [h0]; simp
    | inr hh => rw [hh]; simp
  have hscan2 : scanSub (pyStrip (pyRstrip body) ++
        tagsStr (ps.map (fun p => Tag.mk p.1 p.2))).length
      (pyStrip (pyRstrip body) ++ tagsStr (ps.map (fun p => Tag.mk p.1 p.2)))
      true
      = ((ps.map (fun p => Tag.mk p.1 p.2)).map toMatch,
          pyStrip (pyRstrip body)) := by
    have hb := scanSub_append_body (pyStrip (pyRstrip body))
      (pyStrip (pyRstrip body) ++
        tagsStr (ps.map (fun p => Tag.mk p.1 p.2))).length
      (tagsStr (ps.map (fun p => Tag.mk p.1 p.2))) true
      (Nat.le_refl _) hBat hBlast hheadT
    rw [scanSub_tagsStr _ _ (Nat.le_refl _) hgood] at hb
    simpa using hb
  have h4 : parseItem (pyStrip (pyRstrip body) ++
        tagsStr (ps.map (fun p => Tag.mk p.1 p.2)))
      = .ok ⟨pyStrip (pyRstrip body) ++
            tagsStr (ps.map (fun p => Tag.mk p.1 p.2)),
          pyStrip (pyStrip (pyRstrip body)),
          ps.map (fun p => Tag.mk p.1 p.2)⟩ := by
    simp only [parseItem]
    rw [hrs, hscan2,
      tagsFromMatches_toMatch _ (fun t ht => (hgood t ht).2.2.1)]
    rfl
  unfold roundTrip
  rw [h1, except_bind_ok, h2, except_bind_ok]
  rw [show strItem ⟨pyRstrip body, pyStrip (pyRstrip body),
      [] ++ ps.map (fun p => Tag.mk p.1 p.2)⟩
    = pyStrip (pyRstrip body) ++ tagsStr (ps.map (fun p => Tag.mk p.1 p.2))
    from by rw [strItem_eq]; simp]
  rw [h4, except_bind_ok]
  rfl

/-- Witness for the amended C4: round-tripping the tags
`[('foo', 'bar'), ('baz', '')]` on the base text `'hello world'` returns
exactly that tag list. -/
theorem C4_witness :
    Items.roundTrip "hello world".toList
        [("foo".toList, "bar".toList), ("baz".toList, "".toList)]
      = .ok [⟨"foo".toList, "bar".toList⟩, ⟨"baz".toList, "".toList⟩] := by
  have := C4_roundtrip_amended "hello world".toList
    [("foo".toList, "bar".toList), ("baz".toList, "".toList)]
    (by decide) (by decide)
  simpa using this

namespace Links

/-- Abstract syntax of the regular expressions of `_links.py`, mirroring
the pattern text: character classes are predicates, `|` prefers its left
alternative, `*` is greedy, `\b` is a word boundary, `^`/`$` are the
unanchored-mode line anchors. -/
inductive RE where
  | eps
  | pred (p : Char → Bool)
  | seq (r s : RE)
  | alt (r s : RE)
  | star (r : RE)
  | wordB
  | bol
  | eol

/-- ASCII fragment of Python's `\w` (the strings these claims evaluate are
ASCII). -/
def isPyWordChar (c : Char) : Bool :=
  c.isAlphanum || c == '_'

def isWordOpt : Option Char → Bool
  | none => false
  | some c => isPyWordChar c

/-- `\b`: a word character on exactly one side of the position. -/
def atWordBoundary (prev next : Option Char) : Bool :=
  isWordOpt prev != isWordOpt next

/-- One level of the backtracking matcher in continuation style, following
the search order of Python's engine: alternatives left first, stars
longest first.  `prev` is the character before the current position
(`none` at the start of the string), so `\b` and `^` can be decided.
`next` performs the next star iteration (see `reMatch`). -/
def reMatchStep
    (next : RE → Option Char → List Char →
      (Option Char → List Char → Bool) → Bool) :
    RE → Option Char → List Char → (Option Char → List Char → Bool) → Bool
  | .eps, prev, l, k => k prev l
  | .pred p, _, l, k =>
    match l with
    | [] => false
    | c :: rest => p c && k (some c) rest
  | .seq r s, prev, l, k =>
    reMatchStep next r prev l (fun p2 l2 => reMatchStep next s p2 l2 k)
  | .alt r s, prev, l, k =>
    reMatchStep next r prev l k || reMatchStep next s prev l k
  | .star r, prev, l, k =>
    reMatchStep next r prev l
      (fun p2 l2 =>
        if l2.length < l.length then next (.star r) p2 l2 k else false)
    || k prev l
  | .wordB, prev, l, k => atWordBoundary prev l.head? && k prev l
  | .bol, prev, l, k => prev.isNone && k prev l
  | .eol, prev, l, k => (l.isEmpty || l == ['\n']) && k prev l

/-- The backtracking matcher.  `fuel` only bounds the star loops to make
the recursion structural: an iteration of any star must consume at least
one character (the length check in `reMatchStep` — true of every starred
subpattern below, none of which accepts the empty string), so any
`fuel > length of the input` computes the same result as Python's
unbounded search, and the fuel-exhausted branch is never reached. -/
def reMatch : Nat → RE → Option Char → List Char →
    (Option Char → List Char → Bool) → Bool
  | 0 => reMatchStep (fun _ _ _ _ => false)
  | fuel + 1 => reMatchStep (reMatch fuel)

/-- `re.search`: try a match at every position, left to right. -/
def reSearch (re : RE) : Option Char → List Char → Bool
  | prev, [] => reMatch 1 re prev [] (fun _ _ => true)
  | prev, c :: rest =>
    reMatch ((c :: rest).length + 1) re prev (c :: rest) (fun _ _ => true) ||
      reSearch re (some c) rest

def pySearch (re : RE) (s : String) : Bool :=
  reSearch re none s.toList

def rchar (c : Char) : RE := .pred (fun x => x == c)

def rplus (r : RE) : RE := .seq r (.star r)

def ropt (r : RE) : RE := .alt r .eps

/-- `[A-Z0-9._%+\-]` under `re.IGNORECASE`. -/
def emailUserChar (c : Char) : Bool :=
  c.isAlpha || c.isDigit || c == '.' || c == '_' || c == '%' || c == '+' ||
    c == '-'

/-- `[A-Z0-9.\-]` under `re.IGNORECASE`. -/
def emailHostChar (c : Char) : Bool :=
  c.isAlpha || c.isDigit || c == '.' || c == '-'

/-- `[A-Z]{2,4}` under `re.IGNORECASE`, greedy. -/
def emailTld : RE :=
  .seq (.pred Char.isAlpha) (.seq (.pred Char.isAlpha)
    (ropt (.seq (.pred Char.isAlpha) (ropt (.pred Char.isAlpha)))))

/-- `EMAIL_REGEX` from `_links.py`. -/
def EMAIL_RE : RE :=
  .seq .wordB (.seq (rplus (.pred emailUserChar)) (.seq (rchar '@')
    (.seq (rplus (.pred emailHostChar)) (.seq (rchar '.')
      (.seq emailTld .wordB)))))

/-- `PATH_REGEX` from `_links.py`: `\.?\/(?:\\\s|[^\0 ]+)`. -/
def PATH_RE : RE :=
  .seq (ropt (rchar '.')) (.seq (rchar '/')
    (.alt (.seq (rchar '\\') (.pred isPySpace))
      (rplus (.pred (fun c => c.toNat != 0 && c != ' ')))))

/-- `[\w\-]`. -/
def webWordDash (c : Char) : Bool :=
  isPyWordChar c || c == '-'

/-- `[a-z0-9%.]` under `re.IGNORECASE`. -/
def webAfterColonChar (c : Char) : Bool :=
  c.isAlpha || c.isDigit || c == '%' || c == '.'

/-- `\/{1,3}`, greedy. -/
def webSlashes : RE :=
  .seq (rchar '/') (ropt (.seq (rchar '/') (ropt (rchar '/'))))

/-- `\d{0,3}`, greedy. -/
def webDigits : RE :=
  ropt (.seq (.pred Char.isDigit) (ropt (.seq (.pred Char.isDigit)
    (ropt (.pred Char.isDigit)))))

/-- `w` under `re.IGNORECASE`. -/
def webW : RE := .pred (fun c => c == 'w' || c == 'W')

/-- The scheme-or-www alternative opening `WEB_REGEX`. -/
def webFirst : RE :=
  .alt
    (.seq (.pred Char.isAlpha) (.seq (rplus (.pred webWordDash))
      (.seq (rchar ':') (.alt webSlashes (.pred webAfterColonChar)))))
    (.seq webW (.seq webW (.seq webW (.seq webDigits (rchar '.')))))

/-- `[^\s()<>]`. -/
def webMidChar (c : Char) : Bool :=
  !(isPySpace c) && c != '(' && c != ')' && c != '<' && c != '>'

/-- `(?:[^\s()<>]+|\([^\s()<>]+\))+`. -/
def webMid : RE :=
  rplus (.alt (rplus (.pred webMidChar))
    (.seq (rchar '(') (.seq (rplus (.pred webMidChar)) (rchar ')'))))

/-- The final character class of `WEB_REGEX`: everything except whitespace,
backquote, `!()[]{};:`, both quotes, `.,<>?` and the guillemet/curly-quote
characters. -/
def webEndChar (c : Char) : Bool :=
  !(isPySpace c) &&
    !([0x60, 0x21, 0x28, 0x29, 0x5b, 0x5d, 0x7b, 0x7d, 0x3b, 0x3a, 0x27,
        0x22, 0x2e, 0x2c, 0x3c, 0x3e, 0x3f, 0xab, 0xbb, 0x201c, 0x201d,
        0x2018, 0x2019].contains c.toNat)

/-- `(?:\([^\s()<>]+\)|[^…\s])` closing `WEB_REGEX`. -/
def webEnd : RE :=
  .alt (.seq (rchar '(') (.seq (rplus (.pred webMidChar)) (rchar ')')))
    (.pred webEndChar)

/-- `WEB_REGEX` from `_links.py`. -/
def WEB_RE : RE :=
  .seq .wordB (.seq webFirst (.seq webMid webEnd))

/-- The group `(EMAIL|PATH|WEB)` of `LINK_REGEX`, in that order. -/
def LINK_GROUP : RE :=
  .alt EMAIL_RE (.alt PATH_RE WEB_RE)

/-- `is_string_link`: `re.search('^' + LINK_REGEX.pattern + '$', text)`,
i.e. `^(?:^|\s)(EMAIL|PATH|WEB)$`.  The leading `^` (no `re.MULTILINE`)
only matches at position 0, so the search reduces to one anchored match
attempt from the start. -/
def is_string_link (text : String) : Bool :=
  reMatch (text.length + 1)
    (.seq .bol (.seq (.alt .bol (.pred isPySpace)) (.seq LINK_GROUP .eol)))
    none text.toList (fun _ _ => true)

/-- Python exceptions distinguished by the claims on `_links.py`. -/
inductive PyError where
  | valueError
  | attributeError
deriving DecidableEq

/-- `LinkCollection.insert` — the method `append` delegates to, since
`MutableSequence.append(value)` is `insert(len(self), value)`.  A value
that is not a whole-string link raises `ValueError`; a valid link reaches
`self._links.insert(key, value)`, but `__init__` only ever assigns
`self.item`, no other method assigns `_links`, and the class defines no
such attribute, so the lookup raises `AttributeError`.  The position
argument never affects the outcome and is omitted. -/
def linkInsert (value : String) : Except PyError Unit :=
  if !(is_string_link value) then .error .valueError
  else .error .attributeError

/-- The varying fields of the dict `LinkCollection._raw_links` builds for
one match of `LINK_REGEX` (its `type` field is always the constant
`'link'` and `text` is the matched group, so neither is modelled). -/
structure RawLink where
  link_type : String
  href : String
deriving DecidableEq

/-- The classification chain of `_raw_links`, applied to the matched
substring `t` (`match.group(1)`): `if re.search(EMAIL_REGEX, t)` sets
`link_type = 'email'` and, when `t` does not start with `mailto:`, sets
`href = 'mailto:' + t`; `elif re.search(WEB_REGEX, t)` likewise with
`web` / `http://` (skipped when `t` starts with `http://` or
`https://`); `else` with `path` / `file://`; finally `if 'href' not in
link: link['href'] = link['text']`. -/
def rawLinkOfText (t : String) : RawLink :=
  let pair : String × Option String :=
    if pySearch EMAIL_RE t then
      ("email",
        if !(t.startsWith "mailto:") then some ("mailto:" ++ t) else none)
    else if pySearch WEB_RE t then
      ("web",
        if !(t.startsWith "http://" || t.startsWith "https://") then
          some ("http://" ++ t)
        else none)
    else
      ("path",
        if !(t.startsWith "file://") then some ("file://" ++ t) else none)
  { link_type := pair.1, href := pair.2.getD t }

/-- The claim's wording of the type decision, written from the claim text
rather than the code, to be compared with `rawLinkOfText`: email if the
email pattern matches, else web if the web pattern matches, else path. -/
def claimLinkType (t : String) : String :=
  if pySearch EMAIL_RE t then "email"
  else if pySearch WEB_RE t then "web"
  else "path"

/-- The claim's wording of the href rule, written from the claim text
rather than the code: the text prefixed with `mailto:` / `http://` /
`file://` according to the type, except that no prefix is added when the
text already starts with `mailto:`, with `http://` or `https://`, or
with `file://` respectively. -/
def claimHref (t : String) : String :=
  if pySearch EMAIL_RE t then
    if t.startsWith "mailto:" then t else "mailto:" ++ t
  else if pySearch WEB_RE t then
    if t.startsWith "http://" || t.startsWith "https://" then t
    else "http://" ++ t
  else
    if t.startsWith "file://" then t else "file://" ++ t

end Links

/-- C7: the claim says `links.append(text)` succeeds for a whole-string
link such as `http://x.co` and raises only for non-links such as
`notalink` or `http://example.org and some text`.  In the code the append
never succeeds: for the valid link the validation passes but the method
then reads the never-assigned attribute `_links` and raises
`AttributeError`, while the two non-links raise `ValueError` (the spec's
`InvalidLink`) from the validation. -/
theorem C7_append_never_succeeds :
    Links.linkInsert "http://x.co" = .error .attributeError ∧
    Links.linkInsert "notalink" = .error .valueError ∧
    Links.linkInsert "http://example.org and some text" = .error .valueError :=
  ⟨by rfl, by rfl, by rfl⟩

/-- C9: for every matched substring, the classification of `_raw_links`
agrees with the claim: type email / web / path decided in that order by
the email and web patterns, and href equal to the text prefixed with
`mailto:` / `http://` / `file://` except when the text already starts
with `mailto:`, with `http://` or `https://`, or with `file://`
respectively. -/
theorem C9_link_classification (t : String) :
    (Links.rawLinkOfText t).link_type = Links.claimLinkType t ∧
    (Links.rawLinkOfText t).href = Links.claimHref t := by
  unfold Links.rawLinkOfText Links.claimLinkType Links.claimHref
  split_ifs <;> simp_all
